import Mathlib

/-!
# Verification of `analyze_track_files.py`

A shallow embedding of the core of the track-file analyzer:

* `read_3do_header` — decodes the binary header of a `.3do` file into the
  lists of referenced `.mip` and `.3do` names;
* `read_mip_header` — decodes a `.mip` header into `(width, height)`;
* `collect_all_3do_files` — worklist computation of the transitive closure
  of `.3do` references;
* `get_unused_mip_files` — case-insensitive set difference of the `.mip`
  files present in a directory against the used set.

Files are byte lists (`List Nat`, one entry per byte); decoded names are
lists of Latin-1 code points.  Fallible reads are `Option`-valued; the
Python `try/except` recovery paths are the `none`/short-list branches.
-/

namespace AnalyzeTrackFiles

/-- A filename or decoded name: a list of Latin-1 code points.
Latin-1 decoding maps byte `b` to code point `b`, so bytes and code
points coincide in this embedding. -/
abbrev Name := List Nat

/-- The code points of `".mip"`, the extension appended to decoded mip
references (`mip_file + '.mip'` in the source). -/
def extMip : Name := [46, 109, 105, 112]

/-- The code points of `".3do"`, the extension appended to decoded 3do
references (`three_do_file + '.3do'` in the source). -/
def ext3do : Name := [46, 51, 100, 111]

/-- Python `s.strip('\x00')`: removes the maximal runs of null code
points from BOTH ends of the string. -/
def stripNulls (s : Name) : Name :=
  ((s.dropWhile (· == 0)).reverse.dropWhile (· == 0)).reverse

/-- Printability of a single Latin-1 code point, as Python's
`str.isprintable` judges characters U+0000–U+00FF: the C0/C1 control
ranges, the no-break space U+00A0 and the soft hyphen U+00AD are not
printable; everything else below U+0100 is. -/
def isPrintableByte (c : Nat) : Bool :=
  decide ((32 ≤ c ∧ c ≤ 126) ∨ (161 ≤ c ∧ c ≤ 255 ∧ c ≠ 173))

/-- The acceptance test applied to each decoded 3do name in the source:
`not ('\x00' in s or not s.isprintable())`, i.e. no null code point and
every character printable (an empty string passes: `''.isprintable()`
is `True` in Python). -/
def validName (s : Name) : Bool :=
  !s.contains 0 && s.all isPrintableByte

/-- `struct.unpack('I', f.read(4))`: consume four bytes as a
little-endian unsigned 32-bit integer; `none` models the `struct.error`
raised when fewer than four bytes remain. -/
def readU32 : List Nat → Option (Nat × List Nat)
  | b0 :: b1 :: b2 :: b3 :: rest =>
      some (b0 + 256 * b1 + 65536 * b2 + 16777216 * b3, rest)
  | _ => none

/-- The mip-name loop of `read_3do_header`: `n` times, read up to 8 bytes
(`f.read(8)` returns short at end of file without raising), strip nulls
from both ends, append `".mip"`.  Returns the decoded names and the
remaining bytes. -/
def readMipNames : Nat → List Nat → List Name × List Nat
  | 0, bs => ([], bs)
  | n + 1, bs =>
      let r := readMipNames n (bs.drop 8)
      ((stripNulls (bs.take 8) ++ extMip) :: r.1, r.2)

/-- The 3do-name loop of `read_3do_header`: `n` times, read up to 8
bytes, strip nulls from both ends, and keep the entry (with `".3do"`
appended) only when it passes `validName`; rejected entries are skipped
(`continue`). -/
def read3doNames : Nat → List Nat → List Name
  | 0, _ => []
  | n + 1, bs =>
      let s := stripNulls (bs.take 8)
      let rest := read3doNames n (bs.drop 8)
      if validName s then (s ++ ext3do) :: rest else rest

/-- `read_3do_header`: `none` input models a file that cannot be opened
(`IOError`); otherwise skip 8 bytes, read the three little-endian u32
counts (a short read here raises `struct.error`), then decode
`num_mip` mip names, skip `num_pmp` 8-byte blocks, and decode `num_3do`
3do names.  Both error paths return the empty pair, as the `except`
clause does. -/
def read_3do_header : Option (List Nat) → List Name × List Name
  | none => ([], [])
  | some file =>
      match readU32 (file.drop 8) with
      | none => ([], [])
      | some (numMip, bs1) =>
        match readU32 bs1 with
        | none => ([], [])
        | some (numPmp, bs2) =>
          match readU32 bs2 with
          | none => ([], [])
          | some (num3do, bs3) =>
            let r := readMipNames numMip bs3
            (r.1, read3doNames num3do (r.2.drop (8 * numPmp)))

/-- `read_mip_header`: skip 8 bytes, then read width and height as
little-endian u32.  `none` models both the unopenable file and the
`(None, None)` returned from the `except` clause on a short read. -/
def read_mip_header : Option (List Nat) → Option (Nat × Nat)
  | none => none
  | some file =>
      match readU32 (file.drop 8) with
      | none => none
      | some (w, bs1) =>
        match readU32 bs1 with
        | none => none
        | some (h, _) => some (w, h)

/-- The four little-endian bytes of `n % 2^32`; the encoding side of the
u32 fields, used to state round-trip properties. -/
def u32le (n : Nat) : List Nat :=
  [n % 256, n / 256 % 256, n / 65536 % 256, n / 16777216 % 256]

/-- An 8-byte name block: the name right-padded with null bytes
(spec §3, "an 8-byte fixed-width ASCII/Latin-1 name, right-padded with
null bytes"). -/
def pad8 (s : Name) : List Nat := s ++ List.replicate (8 - s.length) 0

/-- Modelled from the spec (§6 byte layout): the encoder for a `.3do`
header — 8 ignored bytes, the three little-endian u32 counts, then the
8-byte null-padded name blocks of each section.  Used to state the
round-trip claims about `read_3do_header`. -/
def encode_3do_header (mips pmps tdos : List Name) : List Nat :=
  List.replicate 8 0 ++ u32le mips.length ++ u32le pmps.length ++ u32le tdos.length
    ++ (mips.map pad8).flatten ++ (pmps.map pad8).flatten ++ (tdos.map pad8).flatten

/-- Modelled from the spec's words for the stripping step ("trailing
null bytes stripped"): remove ONLY the trailing nulls.  Stated for
comparison with the source's `stripNulls`. -/
def stripTrailingNulls (s : Name) : Name :=
  (s.reverse.dropWhile (· == 0)).reverse

/-- The folder passed to the resolver: an association of filenames to
file contents.  A name not present models `os.path.join` pointing at a
missing file, whose `open` raises `IOError`. -/
abbrev Folder := List (Name × List Nat)

/-- Opening `os.path.join(folder_path, n)` for binary read. -/
def fsLookup (folder : Folder) (n : Name) : Option (List Nat) :=
  folder.lookup n

/-- The `.3do` references of file `n`, as `collect_all_3do_files`
obtains them: `_, referenced_3do_files = read_3do_header(...)`. -/
def refsOf (folder : Folder) (n : Name) : List Name :=
  (read_3do_header (fsLookup folder n)).2

/-- The distinct filenames present in the folder (used only to bound the
worklist computation). -/
def univOf (folder : Folder) : List Name :=
  (folder.map Prod.fst).dedup

/-- Total weight of the folder files not yet visited; the decreasing
part of the worklist measure. -/
def pendingWeight (folder : Folder) (visited : List Name) : Nat :=
  (((univOf folder).filter (fun n => decide (n ∉ visited))).map
    (fun n => 1 + (refsOf folder n).length)).sum

/-- The worklist measure: every iteration of the `while to_process:`
loop strictly decreases it, which bounds the number of iterations. -/
def measureOf (folder : Folder) (visited toProcess : List Name) : Nat :=
  pendingWeight folder visited + toProcess.length

/-- One-to-one image of the `while to_process:` loop of
`collect_all_3do_files`, with an explicit iteration budget: pop the last
element (`to_process.pop()`); if already visited, continue; otherwise
mark it visited, decode its header, and append every referenced `.3do`
name not yet visited.  `none` is returned only when the budget runs out
before the worklist empties. -/
def collectAuxF (folder : Folder) : Nat → List Name → List Name → Option (List Name)
  | 0, toProcess, visited => if toProcess.isEmpty then some visited else none
  | fuel + 1, toProcess, visited =>
      match toProcess.getLast? with
      | none => some visited
      | some current =>
          if current ∈ visited then
            collectAuxF folder fuel toProcess.dropLast visited
          else
            collectAuxF folder fuel
              (toProcess.dropLast ++ (refsOf folder current).filter
                (fun r => decide (r ∉ visited ++ [current])))
              (visited ++ [current])

/-- Run the worklist loop from the given seeds with the measure as the
iteration budget (proved sufficient below). -/
def collectRun (folder : Folder) (seeds : List Name) : Option (List Name) :=
  collectAuxF folder (measureOf folder [] seeds) seeds []

/-- `collect_all_3do_files(track_file, folder_path, additional_files)`:
seed the worklist with `[track_file] + additional_files` and run the
loop; returns `list(all_3do_files)`. -/
def collect_all_3do_files (folder : Folder) (track : Name) (additional : List Name) : List Name :=
  (collectRun folder (track :: additional)).getD []

/-- The reference edge: file `a` references file `b` in its decoded
`.3do` list. -/
def Step (folder : Folder) (a b : Name) : Prop :=
  b ∈ refsOf folder a

/-- Reachability along reference edges. -/
def Reaches (folder : Folder) : Name → Name → Prop :=
  Relation.ReflTransGen (Step folder)

/-- Python `str.lower` restricted to the Latin-1 code points: the ASCII
capitals and the Latin-1 capitals À–Þ (× excepted) gain 32; every other
code point below 256 is fixed.  (Code points ≥ 256 do not arise from the
byte-oriented names this program handles and are left fixed.) -/
def lowerChar (c : Nat) : Nat :=
  if (65 ≤ c ∧ c ≤ 90) ∨ (192 ≤ c ∧ c ≤ 214) ∨ (216 ≤ c ∧ c ≤ 222) then c + 32 else c

/-- `f.lower()` on a filename. -/
def lowerName (s : Name) : Name := s.map lowerChar

/-- `get_unused_mip_files(folder_path, used_mip_files)`: the lower-cased
directory entries ending (case-insensitively) in `.mip`, minus the
lower-cased used set.  `dirListing` stands for `os.listdir(folder_path)`. -/
def get_unused_mip_files (dirListing : List Name) (usedMipFiles : List Name) : List Name :=
  let allMips := ((dirListing.map lowerName).filter (fun f => extMip.isSuffixOf f)).dedup
  let usedSet := (usedMipFiles.map lowerName).dedup
  allMips.filter (fun f => decide (f ∉ usedSet))

/-- The name `"a.3do"`. -/
def nameA : Name := [97, 46, 51, 100, 111]

/-- The name `"b.3do"`. -/
def nameB : Name := [98, 46, 51, 100, 111]

/-- A `.3do` file whose header references exactly `"b.3do"`:
counts (0, 0, 1) and one name block `"b"`. -/
def bodyA : List Nat :=
  List.replicate 8 0 ++ [0, 0, 0, 0] ++ [0, 0, 0, 0] ++ [1, 0, 0, 0] ++
    [98, 0, 0, 0, 0, 0, 0, 0]

/-- A `.3do` file whose header references exactly `"a.3do"`. -/
def bodyB : List Nat :=
  List.replicate 8 0 ++ [0, 0, 0, 0] ++ [0, 0, 0, 0] ++ [1, 0, 0, 0] ++
    [97, 0, 0, 0, 0, 0, 0, 0]

/-- The two-file cyclic folder: `a.3do` references `b.3do` and vice
versa. -/
def cycleFolder : Folder := [(nameA, bodyA), (nameB, bodyB)]

/-- A 20-byte `.3do` file: counts (3, 0, 0) but no name-block bytes at
all — the declared counts require 44 bytes. -/
def cexC1 : List Nat :=
  List.replicate 8 0 ++ [3, 0, 0, 0] ++ [0, 0, 0, 0] ++ [0, 0, 0, 0]

/-- A `.3do` file with counts (1, 0, 0) and the single mip name block
`00 61 00 00 00 00 00 00` — a LEADING null before `"a"`. -/
def cexC6 : List Nat :=
  List.replicate 8 0 ++ [1, 0, 0, 0] ++ [0, 0, 0, 0] ++ [0, 0, 0, 0] ++
    [0, 97, 0, 0, 0, 0, 0, 0]

/-! ## Basic lemmas about the u32 field reader -/

lemma readU32_length {bs : List Nat} {n : Nat} {rest : List Nat}
    (h : readU32 bs = some (n, rest)) : bs.length = rest.length + 4 := by
  match bs with
  | [] => simp [readU32] at h
  | [_] => simp [readU32] at h
  | [_, _] => simp [readU32] at h
  | [_, _, _] => simp [readU32] at h
  | b0 :: b1 :: b2 :: b3 :: t =>
      simp [readU32] at h
      simp [← h.2]

lemma u32_decomp (n : Nat) (hn : n < 4294967296) :
    n % 256 + 256 * (n / 256 % 256) + 65536 * (n / 65536 % 256) +
      16777216 * (n / 16777216 % 256) = n := by
  have e64 : n / 65536 = n / 256 / 256 := by
    rw [Nat.div_div_eq_div_mul]
  have e167 : n / 16777216 = n / 256 / 256 / 256 := by
    rw [Nat.div_div_eq_div_mul, Nat.div_div_eq_div_mul]
  rw [e64, e167]
  obtain ⟨a, ha⟩ : ∃ a, n / 256 = a := ⟨_, rfl⟩
  obtain ⟨b, hb⟩ : ∃ b, a / 256 = b := ⟨_, rfl⟩
  obtain ⟨c, hc⟩ : ∃ c, b / 256 = c := ⟨_, rfl⟩
  rw [ha, hb, hc]
  have e1 : 256 * a + n % 256 = n := by rw [← ha]; exact Nat.div_add_mod n 256
  have e2 : 256 * b + a % 256 = a := by rw [← hb]; exact Nat.div_add_mod a 256
  have e3 : 256 * c + b % 256 = b := by rw [← hc]; exact Nat.div_add_mod b 256
  omega

lemma readU32_u32le (n : Nat) (hn : n < 4294967296) (bs : List Nat) :
    readU32 (u32le n ++ bs) = some (n, bs) := by
  simp only [u32le, readU32, List.cons_append, List.nil_append, Option.some.injEq,
    Prod.mk.injEq]
  exact ⟨u32_decomp n hn, trivial⟩

/-! ## Claim C1: behavior on truncated files -/

/-- Claim C1 as stated is false: a file whose declared counts require
more bytes than the file contains need not decode to `([], [])`.
`cexC1` has 20 bytes but declares 3 mip entries (44 bytes required);
`read_3do_header` returns three padded `".mip"` entries, not the empty
pair. -/
theorem claim_C1_counterexample :
    cexC1.length < 20 + 8 * 3 ∧
    read_3do_header (some cexC1) = ([extMip, extMip, extMip], []) ∧
    read_3do_header (some cexC1) ≠ ([], []) := by
  refine ⟨by decide, by decide, by decide⟩

/-- Claim C1, amended: only truncation within the three count fields —
a file of fewer than 20 bytes — makes `read_3do_header` return the
empty pair `([], [])` (recovered, nothing raised); truncation in the
name-block region never raises either, but yields short-read entries
rather than the empty pair (see the counterexample). -/
theorem claim_C1_amended (file : List Nat) (hlen : file.length < 20) :
    read_3do_header (some file) = ([], []) := by
  have hd : (file.drop 8).length = file.length - 8 := List.length_drop 8 file
  simp only [read_3do_header]
  split
  · rfl
  next numMip bs1 h1 =>
    have l1 := readU32_length h1
    split
    · rfl
    next numPmp bs2 h2 =>
      have l2 := readU32_length h2
      split
      · rfl
      next num3do bs3 h3 =>
        have l3 := readU32_length h3
        omega

/-- Witness for the amended C1 at a concrete 10-byte file. -/
theorem claim_C1_amended_witness :
    (List.replicate 10 0).length < 20 ∧
    read_3do_header (some (List.replicate 10 0)) = ([], []) :=
  ⟨by decide, claim_C1_amended (List.replicate 10 0) (by decide)⟩

/-! ## Claim C8: the mip header reader -/

/-- Claim C8: `read_mip_header` ignores the first 8 bytes and returns
the little-endian u32s at offsets 8–11 and 12–15 as `(width, height)`;
a file with fewer than the 16 required bytes, or one that cannot be
opened, yields the absent result, and no fault escapes (the function is
total). -/
theorem claim_C8 (pre : List Nat) (hpre : pre.length = 8) (w h : Nat)
    (hw : w < 4294967296) (hh : h < 4294967296) (rest : List Nat) :
    read_mip_header (some (pre ++ (u32le w ++ (u32le h ++ rest)))) = some (w, h) ∧
    (∀ file : List Nat, file.length < 16 → read_mip_header (some file) = none) ∧
    read_mip_header none = none := by
  refine ⟨?_, ?_, rfl⟩
  · simp only [read_mip_header]
    rw [← hpre, List.drop_left]
    simp only [readU32_u32le w hw, readU32_u32le h hh]
  · intro file hlen
    have hd : (file.drop 8).length = file.length - 8 := List.length_drop 8 file
    simp only [read_mip_header]
    split
    · rfl
    next w1 bs1 h1 =>
      have l1 := readU32_length h1
      split
      · rfl
      next h1' bs2 h2 =>
        have l2 := readU32_length h2
        omega

/-- Witness for C8 at a concrete header: width 64, height 128. -/
theorem claim_C8_witness :
    (List.replicate 8 0).length = 8 ∧ (64 : Nat) < 4294967296 ∧
    (128 : Nat) < 4294967296 ∧
    (read_mip_header (some (List.replicate 8 0 ++ (u32le 64 ++ (u32le 128 ++ [])))) =
        some (64, 128) ∧
      (∀ file : List Nat, file.length < 16 → read_mip_header (some file) = none) ∧
      read_mip_header none = none) :=
  ⟨by decide, by decide, by decide,
    claim_C8 (List.replicate 8 0) (by decide) 64 128 (by decide) (by decide) []⟩

/-! ## Claim C6: what the stripping step removes -/

lemma head?_dropWhile_zero (l : List Nat) : (l.dropWhile (· == 0)).head? ≠ some 0 := by
  induction l with
  | nil => simp
  | cons a t ih =>
      by_cases ha : a = 0
      · subst ha; simpa [List.dropWhile_cons] using ih
      · simp [List.dropWhile_cons, ha]

lemma takeWhile_zero_replicate (l : List Nat) :
    l.takeWhile (· == 0) = List.replicate (l.takeWhile (· == 0)).length 0 := by
  apply List.eq_replicate_of_mem
  intro b hb
  have := List.mem_takeWhile_imp hb
  simpa using this

lemma stripNulls_split (s : Name) :
    stripNulls s ++
        List.replicate ((s.dropWhile (· == 0)).reverse.takeWhile (· == 0)).length 0 =
      s.dropWhile (· == 0) := by
  have h2 : (s.dropWhile (· == 0)).reverse.takeWhile (· == 0) ++
      (s.dropWhile (· == 0)).reverse.dropWhile (· == 0) =
      (s.dropWhile (· == 0)).reverse := by simp
  have h3 := congrArg List.reverse h2
  rw [List.reverse_append, List.reverse_reverse] at h3
  rw [takeWhile_zero_replicate ((s.dropWhile (· == 0)).reverse)] at h3
  rw [List.reverse_replicate] at h3
  simpa [stripNulls] using h3

lemma stripNulls_decomp (s : Name) :
    ∃ a b, s = List.replicate a 0 ++ (stripNulls s ++ List.replicate b 0) := by
  refine ⟨(s.takeWhile (· == 0)).length,
    ((s.dropWhile (· == 0)).reverse.takeWhile (· == 0)).length, ?_⟩
  rw [stripNulls_split s, ← takeWhile_zero_replicate s]
  exact (by simp : s.takeWhile (· == 0) ++ s.dropWhile (· == 0) = s).symm

lemma stripNulls_head? (s : Name) : (stripNulls s).head? ≠ some 0 := by
  have h := stripNulls_split s
  have ht := head?_dropWhile_zero s
  cases hsn : stripNulls s with
  | nil => simp
  | cons x xs =>
      rw [← h, hsn] at ht
      simpa using ht

lemma stripNulls_getLast? (s : Name) : (stripNulls s).getLast? ≠ some 0 := by
  simp only [stripNulls]
  rw [List.getLast?_reverse]
  exact head?_dropWhile_zero _

/-- Claim C6 as stated is false: the stripping step removes LEADING
null bytes too.  On the name block `00 61 00 … 00` the claimed
trailing-only strip keeps the leading null, but `read_3do_header`
decodes the mip entry as `"a.mip"`, not `"\x00a.mip"`. -/
theorem claim_C6_counterexample :
    stripTrailingNulls [0, 97, 0, 0, 0, 0, 0, 0] = [0, 97] ∧
    stripNulls [0, 97, 0, 0, 0, 0, 0, 0] = [97] ∧
    read_3do_header (some cexC6) = ([[97] ++ extMip], []) ∧
    ([97] ++ extMip : Name) ≠ [0, 97] ++ extMip := by
  refine ⟨by decide, by decide, by decide, by decide⟩

/-- Claim C6, amended: the decoded text of each 8-byte name block is
its Latin-1 decoding with exactly the maximal LEADING and TRAILING runs
of null bytes removed — embedded nulls are left in place.  Stated as:
every string splits as leading nulls ++ stripped ++ trailing nulls, the
stripped part neither starts nor ends with a null, and the mip-name
decoding loop applies exactly this strip to each 8-byte block before
appending the extension. -/
theorem claim_C6_amended : ∀ s : Name,
    (∃ a b, s = List.replicate a 0 ++ (stripNulls s ++ List.replicate b 0)) ∧
    (stripNulls s).head? ≠ some 0 ∧
    (stripNulls s).getLast? ≠ some 0 ∧
    (∀ bs : List Nat, (readMipNames 1 bs).1 = [stripNulls (bs.take 8) ++ extMip]) := by
  intro s
  exact ⟨stripNulls_decomp s, stripNulls_head? s, stripNulls_getLast? s, fun bs => rfl⟩

/-! ## Claims C7 and C10: the unused-mip scan -/

lemma mem_get_unused_mip_files (dir used : List Name) (n : Name) :
    n ∈ get_unused_mip_files dir used ↔
      ((∃ f ∈ dir, lowerName f = n) ∧ extMip.isSuffixOf n = true ∧
        ¬ ∃ u ∈ used, lowerName u = n) := by
  simp only [get_unused_mip_files, List.mem_filter, List.mem_dedup, List.mem_map,
    decide_eq_true_eq]
  tauto

/-- Claim C7: `get_unused_mip_files` returns exactly the set difference
of the `.mip`-suffixed filenames present in the directory minus the
used set, compared case-insensitively (both sides lower-cased); in
particular a used entry `"Tex1.mip"` excludes the directory entry
`"tex1.MIP"` from the result. -/
theorem claim_C7 :
    (∀ (dir used : List Name) (n : Name),
        n ∈ get_unused_mip_files dir used ↔
          ((∃ f ∈ dir, lowerName f = n) ∧ extMip.isSuffixOf n = true ∧
            ¬ ∃ u ∈ used, lowerName u = n)) ∧
    get_unused_mip_files [[116, 101, 120, 49, 46, 77, 73, 80]]
        [[84, 101, 120, 49, 46, 109, 105, 112]] = [] :=
  ⟨mem_get_unused_mip_files, by decide⟩

lemma lowerChar_idem (c : Nat) : lowerChar (lowerChar c) = lowerChar c := by
  simp only [lowerChar]
  split_ifs <;> omega

lemma lowerName_idem (s : Name) : lowerName (lowerName s) = lowerName s := by
  simp only [lowerName, List.map_map]
  refine List.map_congr_left ?_
  intro a _
  simp only [Function.comp_apply]
  exact lowerChar_idem a

/-- Claim C10: every name returned by `get_unused_mip_files` is fully
lower-cased; the directory entry `"TEX.MIP"` is reported as
`"tex.mip"`, not in its original case. -/
theorem claim_C10 :
    (∀ (dir used : List Name) (n : Name),
        n ∈ get_unused_mip_files dir used → lowerName n = n) ∧
    get_unused_mip_files [[84, 69, 88, 46, 77, 73, 80]] [] =
      [[116, 101, 120, 46, 109, 105, 112]] := by
  refine ⟨?_, by decide⟩
  intro dir used n hn
  obtain ⟨⟨f, _, hfn⟩, _, _⟩ := (mem_get_unused_mip_files dir used n).mp hn
  rw [← hfn]
  exact lowerName_idem f

/-! ## Encode/decode lemmas for the header round trip -/

lemma pad8_length {s : Name} (h : s.length ≤ 8) : (pad8 s).length = 8 := by
  simp only [pad8, List.length_append, List.length_replicate]
  omega

lemma take_pad8 {s : Name} (h : s.length ≤ 8) (bs : List Nat) :
    (pad8 s ++ bs).take 8 = pad8 s := by
  rw [← pad8_length h]
  exact List.take_left _ _

lemma drop_pad8 {s : Name} (h : s.length ≤ 8) (bs : List Nat) :
    (pad8 s ++ bs).drop 8 = bs := by
  rw [← pad8_length h]
  exact List.drop_left _ _

lemma readMipNames_encode : ∀ (mips : List Name) (bs : List Nat),
    (∀ m ∈ mips, m.length ≤ 8) →
    readMipNames mips.length ((mips.map pad8).flatten ++ bs) =
      (mips.map (fun m => stripNulls (pad8 m) ++ extMip), bs) := by
  intro mips
  induction mips with
  | nil => intro bs _; simp [readMipNames]
  | cons m ms ih =>
      intro bs hlen
      have hm : m.length ≤ 8 := hlen m (by simp)
      simp only [List.map_cons, List.flatten_cons, List.length_cons, List.append_assoc]
      simp only [readMipNames]
      rw [take_pad8 hm, drop_pad8 hm, ih _ (fun x hx => hlen x (by simp [hx]))]

lemma read3doNames_encode : ∀ (tdos : List Name) (bs : List Nat),
    (∀ m ∈ tdos, m.length ≤ 8) →
    read3doNames tdos.length ((tdos.map pad8).flatten ++ bs) =
      ((tdos.map (fun m => stripNulls (pad8 m))).filter validName).map
        (fun s => s ++ ext3do) := by
  intro tdos
  induction tdos with
  | nil => intro bs _; simp [read3doNames]
  | cons m ms ih =>
      intro bs hlen
      have hm : m.length ≤ 8 := hlen m (by simp)
      simp only [List.map_cons, List.flatten_cons, List.length_cons, List.append_assoc]
      simp only [read3doNames]
      rw [take_pad8 hm, drop_pad8 hm, ih _ (fun x hx => hlen x (by simp [hx]))]
      rw [List.filter_cons]
      by_cases hv : validName (stripNulls (pad8 m))
      · simp [hv]
      · simp [hv]

lemma drop_flatten_pad8 : ∀ (pmps : List Name) (bs : List Nat),
    (∀ m ∈ pmps, m.length ≤ 8) →
    ((pmps.map pad8).flatten ++ bs).drop (8 * pmps.length) = bs := by
  intro pmps
  induction pmps with
  | nil => intro bs _; simp
  | cons m ms ih =>
      intro bs hlen
      have hm : m.length ≤ 8 := hlen m (by simp)
      simp only [List.map_cons, List.flatten_cons, List.length_cons, List.append_assoc]
      rw [Nat.mul_succ, Nat.add_comm, ← List.drop_drop, drop_pad8 hm,
        ih _ (fun x hx => hlen x (by simp [hx]))]

lemma drop8_replicate (bs : List Nat) : (List.replicate 8 0 ++ bs).drop 8 = bs := by
  have : List.replicate 8 (0 : Nat) = pad8 [] := by simp [pad8]
  rw [this]
  exact drop_pad8 (by simp) bs

/-- Decoding an encoded header: the general shape, before any validity
assumption on the names. -/
lemma read_3do_header_encode (mips pmps tdos : List Name)
    (hm : ∀ m ∈ mips, m.length ≤ 8) (hp : ∀ m ∈ pmps, m.length ≤ 8)
    (ht : ∀ m ∈ tdos, m.length ≤ 8)
    (hcm : mips.length < 4294967296) (hcp : pmps.length < 4294967296)
    (hct : tdos.length < 4294967296) :
    read_3do_header (some (encode_3do_header mips pmps tdos)) =
      (mips.map (fun m => stripNulls (pad8 m) ++ extMip),
       ((tdos.map (fun m => stripNulls (pad8 m))).filter validName).map
         (fun s => s ++ ext3do)) := by
  have h3 := read3doNames_encode tdos [] ht
  rw [List.append_nil] at h3
  simp only [read_3do_header, encode_3do_header, List.append_assoc]
  rw [drop8_replicate]
  simp only [readU32_u32le mips.length hcm, readU32_u32le pmps.length hcp,
    readU32_u32le tdos.length hct]
  rw [readMipNames_encode mips _ hm]
  rw [drop_flatten_pad8 pmps _ hp]
  rw [h3]

/-! ## Stripping a padded name recovers the name -/

lemma dropWhile_zero_replicate_append (k : Nat) (X : List Nat) :
    (List.replicate k 0 ++ X).dropWhile (· == 0) = X.dropWhile (· == 0) := by
  induction k with
  | zero => simp
  | succ k ih => simp [List.replicate_succ, List.dropWhile_cons, ih]

lemma dropWhile_zero_of_head (a : Nat) (ha : a ≠ 0) (t : List Nat) :
    (a :: t).dropWhile (· == 0) = a :: t := by
  simp [List.dropWhile_cons, ha]

lemma stripNulls_append_replicate (s : Name) (hz : ∀ c ∈ s, c ≠ 0) (k : Nat) :
    stripNulls (s ++ List.replicate k 0) = s := by
  cases s with
  | nil =>
      simp only [List.nil_append, stripNulls]
      rw [show List.replicate k (0 : Nat) = List.replicate k 0 ++ ([] : List Nat) by simp]
      rw [dropWhile_zero_replicate_append]
      simp
  | cons a t =>
      have ha : a ≠ 0 := hz a (by simp)
      have hfront : ((a :: t) ++ List.replicate k 0).dropWhile (· == 0) =
          (a :: t) ++ List.replicate k 0 := by
        rw [List.cons_append]
        exact dropWhile_zero_of_head a ha (t ++ List.replicate k 0)
      simp only [stripNulls, hfront]
      rw [List.reverse_append, List.reverse_replicate, dropWhile_zero_replicate_append]
      cases hsr : (a :: t).reverse with
      | nil => exact absurd (congrArg List.length hsr) (by simp)
      | cons b rst =>
          have hb : b ≠ 0 := by
            apply hz
            have hmem : b ∈ (a :: t).reverse := by rw [hsr]; simp
            rw [List.mem_reverse] at hmem
            exact hmem
          rw [dropWhile_zero_of_head b hb rst, ← hsr, List.reverse_reverse]

lemma stripNulls_pad8 {s : Name} (hz : ∀ c ∈ s, c ≠ 0) : stripNulls (pad8 s) = s := by
  simp only [pad8]
  exact stripNulls_append_replicate s hz _

lemma printable_ne_zero {c : Nat} (h : isPrintableByte c = true) : c ≠ 0 := by
  intro hc
  subst hc
  exact absurd h (by decide)

lemma ne_zero_of_all_printable {s : Name} (h : s.all isPrintableByte = true) :
    ∀ c ∈ s, c ≠ 0 :=
  fun c hc => printable_ne_zero ((List.all_eq_true.mp h) c hc)

lemma validName_of_printable {s : Name} (h : s.all isPrintableByte = true) :
    validName s = true := by
  have hz : (0 : Nat) ∉ s := fun h0 => ne_zero_of_all_printable h 0 h0 rfl
  simp [validName, h, hz]

/-! ## Claim C2: decoding a well-formed header -/

/-- Claim C2: decoding an encoded header whose names are at most 8
bytes and wholly printable returns exactly the mip names and exactly
the 3do names, in header order, each with the padding stripped and the
extension appended — and hence exactly `num_mip_files` and
`num_3do_files` entries. -/
theorem claim_C2 (mips pmps tdos : List Name)
    (hm : ∀ m ∈ mips, m.length ≤ 8 ∧ m.all isPrintableByte = true)
    (hp : ∀ m ∈ pmps, m.length ≤ 8)
    (ht : ∀ m ∈ tdos, m.length ≤ 8 ∧ m.all isPrintableByte = true)
    (hcm : mips.length < 4294967296) (hcp : pmps.length < 4294967296)
    (hct : tdos.length < 4294967296) :
    read_3do_header (some (encode_3do_header mips pmps tdos)) =
      (mips.map (fun m => m ++ extMip), tdos.map (fun m => m ++ ext3do)) ∧
    (read_3do_header (some (encode_3do_header mips pmps tdos))).1.length = mips.length ∧
    (read_3do_header (some (encode_3do_header mips pmps tdos))).2.length = tdos.length := by
  have hmain := read_3do_header_encode mips pmps tdos (fun m hx => (hm m hx).1) hp
    (fun m hx => (ht m hx).1) hcm hcp hct
  have hmm : mips.map (fun m => stripNulls (pad8 m) ++ extMip) =
      mips.map (fun m => m ++ extMip) :=
    List.map_congr_left fun m hx => by
      rw [stripNulls_pad8 (ne_zero_of_all_printable (hm m hx).2)]
  have hts : tdos.map (fun m => stripNulls (pad8 m)) = tdos := by
    conv_rhs => rw [← List.map_id tdos]
    exact List.map_congr_left fun m hx =>
      stripNulls_pad8 (ne_zero_of_all_printable (ht m hx).2)
  have hfilter : (tdos.map (fun m => stripNulls (pad8 m))).filter validName = tdos := by
    rw [hts]
    exact List.filter_eq_self.mpr fun m hx => validName_of_printable (ht m hx).2
  rw [hmain, hmm, hfilter]
  refine ⟨rfl, by simp, by simp⟩

/-- Witness for C2: one mip name `"a"`, one pmp block `"p"`, one 3do
name `"b"`. -/
theorem claim_C2_witness :
    (∀ m ∈ [[97]], List.length m ≤ 8 ∧ m.all isPrintableByte = true) ∧
    (∀ m ∈ [[112]], List.length m ≤ 8) ∧
    (∀ m ∈ [[98]], List.length m ≤ 8 ∧ m.all isPrintableByte = true) ∧
    (read_3do_header (some (encode_3do_header [[97]] [[112]] [[98]])) =
        ([[97] ++ extMip], [[98] ++ ext3do]) ∧
      (read_3do_header (some (encode_3do_header [[97]] [[112]] [[98]]))).1.length = 1 ∧
      (read_3do_header (some (encode_3do_header [[97]] [[112]] [[98]]))).2.length = 1) :=
  ⟨by decide, by decide, by decide,
    claim_C2 [[97]] [[112]] [[98]] (by decide) (by decide) (by decide)
      (by decide) (by decide) (by decide)⟩

/-! ## Claim C5: rejection of invalid 3do names -/

/-- Claim C5: a 3do name block that strips to an invalid name (embedded
null or non-printable character) is excluded from the returned 3do
list; the entries before and after it decode unaffected; nothing is
raised (the decoder is total); and the mip section is NOT validated —
the mip names here are arbitrary and all of them appear in the
result. -/
theorem claim_C5 (mips pmps tdos1 tdos2 : List Name) (bad : Name)
    (hm : ∀ m ∈ mips, m.length ≤ 8)
    (hp : ∀ m ∈ pmps, m.length ≤ 8)
    (h1 : ∀ m ∈ tdos1, m.length ≤ 8 ∧ m.all isPrintableByte = true)
    (h2 : ∀ m ∈ tdos2, m.length ≤ 8 ∧ m.all isPrintableByte = true)
    (hbl : bad.length ≤ 8)
    (hbad : validName (stripNulls (pad8 bad)) = false)
    (hcm : mips.length < 4294967296) (hcp : pmps.length < 4294967296)
    (hct : (tdos1 ++ bad :: tdos2).length < 4294967296) :
    read_3do_header (some (encode_3do_header mips pmps (tdos1 ++ bad :: tdos2))) =
      (mips.map (fun m => stripNulls (pad8 m) ++ extMip),
       (tdos1 ++ tdos2).map (fun m => m ++ ext3do)) := by
  have ht : ∀ m ∈ tdos1 ++ bad :: tdos2, m.length ≤ 8 := by
    intro m hx
    rcases List.mem_append.mp hx with hx1 | hx2
    · exact (h1 m hx1).1
    · rcases List.mem_cons.mp hx2 with rfl | hx3
      · exact hbl
      · exact (h2 m hx3).1
  rw [read_3do_header_encode mips pmps _ hm hp ht hcm hcp hct]
  have strip1 : tdos1.map (fun m => stripNulls (pad8 m)) = tdos1 := by
    conv_rhs => rw [← List.map_id tdos1]
    exact List.map_congr_left fun m hx =>
      stripNulls_pad8 (ne_zero_of_all_printable (h1 m hx).2)
  have strip2 : tdos2.map (fun m => stripNulls (pad8 m)) = tdos2 := by
    conv_rhs => rw [← List.map_id tdos2]
    exact List.map_congr_left fun m hx =>
      stripNulls_pad8 (ne_zero_of_all_printable (h2 m hx).2)
  have filt1 : tdos1.filter validName = tdos1 :=
    List.filter_eq_self.mpr fun m hx => validName_of_printable (h1 m hx).2
  have filt2 : tdos2.filter validName = tdos2 :=
    List.filter_eq_self.mpr fun m hx => validName_of_printable (h2 m hx).2
  rw [List.map_append, List.map_cons, List.filter_append, List.filter_cons, hbad]
  rw [strip1, strip2, filt1, filt2]
  simp

/-- Witness for C5: good names `"c"` and `"d"` around the invalid block
`"a\x00b"` (embedded null after stripping); mip section holds the same
invalid block, which is still decoded and returned. -/
theorem claim_C5_witness :
    (∀ m ∈ [[97, 0, 98]], List.length m ≤ 8) ∧
    (∀ m ∈ ([] : List Name), List.length m ≤ 8) ∧
    (∀ m ∈ [[99]], List.length m ≤ 8 ∧ m.all isPrintableByte = true) ∧
    (∀ m ∈ [[100]], List.length m ≤ 8 ∧ m.all isPrintableByte = true) ∧
    List.length [97, 0, 98] ≤ 8 ∧
    validName (stripNulls (pad8 [97, 0, 98])) = false ∧
    read_3do_header
        (some (encode_3do_header [[97, 0, 98]] [] ([[99]] ++ [97, 0, 98] :: [[100]]))) =
      ([[97, 0, 98] ++ extMip], [[99] ++ ext3do, [100] ++ ext3do]) := by
  refine ⟨by decide, by decide, by decide, by decide, by decide, by decide, ?_⟩
  have h := claim_C5 [[97, 0, 98]] [] [[99]] [[100]] [97, 0, 98]
    (by decide) (by decide) (by decide) (by decide) (by decide) (by decide)
    (by decide) (by decide) (by decide)
  rw [h]
  decide

/-! ## Claim C9: the all-null name block is accepted -/

/-- Claim C9: an 8-byte 3do name block that is entirely null bytes
strips to the empty name, which the validity check accepts (no null
remains and the empty string is printable), so the bare entry `".3do"`
appears in the result. -/
theorem claim_C9 (mips pmps tdos1 tdos2 : List Name)
    (hm : ∀ m ∈ mips, m.length ≤ 8) (hp : ∀ m ∈ pmps, m.length ≤ 8)
    (h1 : ∀ m ∈ tdos1, m.length ≤ 8) (h2 : ∀ m ∈ tdos2, m.length ≤ 8)
    (hcm : mips.length < 4294967296) (hcp : pmps.length < 4294967296)
    (hct : (tdos1 ++ [] :: tdos2).length < 4294967296) :
    validName (stripNulls (pad8 [])) = true ∧
    ext3do ∈
      (read_3do_header (some (encode_3do_header mips pmps (tdos1 ++ [] :: tdos2)))).2 := by
  have ht : ∀ m ∈ tdos1 ++ [] :: tdos2, m.length ≤ 8 := by
    intro m hx
    rcases List.mem_append.mp hx with hx1 | hx2
    · exact h1 m hx1
    · rcases List.mem_cons.mp hx2 with rfl | hx3
      · simp
      · exact h2 m hx3
  refine ⟨by decide, ?_⟩
  rw [read_3do_header_encode mips pmps _ hm hp ht hcm hcp hct]
  apply List.mem_map.mpr
  refine ⟨[], ?_, by simp⟩
  apply List.mem_filter.mpr
  refine ⟨?_, by decide⟩
  apply List.mem_map.mpr
  exact ⟨[], by simp, by decide⟩

/-- Witness for C9: a header with one all-null 3do name block. -/
theorem claim_C9_witness :
    (∀ m ∈ ([] : List Name), List.length m ≤ 8) ∧
    (validName (stripNulls (pad8 [])) = true ∧
      ext3do ∈ (read_3do_header (some (encode_3do_header [] [] ([] ++ [] :: [])))).2) :=
  ⟨by decide,
    claim_C9 [] [] [] [] (by decide) (by decide) (by decide) (by decide)
      (by decide) (by decide) (by decide)⟩

/-! ## The worklist loop: step equations -/

lemma collectAuxF_zero (folder : Folder) (tp vis : List Name) :
    collectAuxF folder 0 tp vis = if tp.isEmpty then some vis else none := rfl

lemma collectAuxF_succ (folder : Folder) (fuel : Nat) (tp vis : List Name) :
    collectAuxF folder (fuel + 1) tp vis =
      match tp.getLast? with
      | none => some vis
      | some current =>
          if current ∈ vis then collectAuxF folder fuel tp.dropLast vis
          else collectAuxF folder fuel
            (tp.dropLast ++ (refsOf folder current).filter
              (fun r => decide (r ∉ vis ++ [current])))
            (vis ++ [current]) := rfl

lemma collectAuxF_succ_none {tp : List Name} (folder : Folder) (fuel : Nat)
    (vis : List Name) (h : tp.getLast? = none) :
    collectAuxF folder (fuel + 1) tp vis = some vis := by
  rw [collectAuxF_succ, h]

lemma collectAuxF_succ_visited {tp vis : List Name} {c : Name} (folder : Folder)
    (fuel : Nat) (h : tp.getLast? = some c) (hc : c ∈ vis) :
    collectAuxF folder (fuel + 1) tp vis =
      collectAuxF folder fuel tp.dropLast vis := by
  rw [collectAuxF_succ, h]
  simp [hc]

lemma collectAuxF_succ_new {tp vis : List Name} {c : Name} (folder : Folder)
    (fuel : Nat) (h : tp.getLast? = some c) (hc : c ∉ vis) :
    collectAuxF folder (fuel + 1) tp vis =
      collectAuxF folder fuel
        (tp.dropLast ++ (refsOf folder c).filter (fun r => decide (r ∉ vis ++ [c])))
        (vis ++ [c]) := by
  rw [collectAuxF_succ, h]
  simp [hc]

lemma getLast?_eq_none_imp {α : Type} {l : List α} (h : l.getLast? = none) : l = [] := by
  induction l using List.reverseRecOn with
  | nil => rfl
  | append_singleton xs x _ => rw [List.getLast?_concat] at h; cases h

lemma getLast?_decomp {α : Type} {l : List α} {a : α} (h : l.getLast? = some a) :
    l = l.dropLast ++ [a] := by
  induction l using List.reverseRecOn with
  | nil => simp at h
  | append_singleton xs x _ =>
      rw [List.getLast?_concat] at h
      injection h with h
      subst h
      rw [List.dropLast_concat]

/-! ## The worklist measure decreases -/

lemma lookup_eq_none_aux {n : Name} : ∀ (folder : Folder), n ∉ folder.map Prod.fst →
    List.lookup n folder = none := by
  intro folder
  induction folder with
  | nil => intro _; rfl
  | cons p ps ih =>
      intro h
      obtain ⟨k, v⟩ := p
      simp only [List.map_cons, List.mem_cons, not_or] at h
      have hb : (n == k) = false := beq_eq_false_iff_ne.mpr h.1
      simp [List.lookup, hb, ih h.2]

lemma refsOf_eq_nil_of_absent {folder : Folder} {n : Name} (h : n ∉ univOf folder) :
    refsOf folder n = [] := by
  have hl : fsLookup folder n = none :=
    lookup_eq_none_aux folder (fun hx => h (List.mem_dedup.mpr hx))
  simp [refsOf, hl, read_3do_header]

lemma sum_filter_and_ne (w : Name → Nat) :
    ∀ (l : List Name) (p : Name → Bool) (c : Name), l.Nodup → c ∈ l → p c = true →
    ((l.filter fun n => p n && decide (n ≠ c)).map w).sum + w c =
      ((l.filter p).map w).sum := by
  intro l
  induction l with
  | nil => intro p c _ hc _; cases hc
  | cons a t ih =>
      intro p c hnd hc hp
      rw [List.nodup_cons] at hnd
      rcases List.mem_cons.mp hc with rfl | hct
      · have hcc : decide (c ≠ c) = false := by simp
        rw [List.filter_cons, List.filter_cons, hp, hcc]
        have heq : t.filter (fun n => p n && !decide (n = c)) = t.filter p :=
          List.filter_congr fun n hn => by
            have hna : n ≠ c := fun e => hnd.1 (e ▸ hn)
            simp [hna]
        simp [heq, Nat.add_comm]
      · have hac : a ≠ c := fun e => hnd.1 (e ▸ hct)
        rw [List.filter_cons, List.filter_cons]
        have hsame : (p a && decide (a ≠ c)) = p a := by simp [hac]
        rw [hsame]
        have := ih p c hnd.2 hct hp
        by_cases hpa : p a = true
        · simp only [hpa, if_true, List.map_cons, List.sum_cons]
          omega
        · simp only [Bool.not_eq_true] at hpa
          simp only [hpa, Bool.false_eq_true, if_false]
          exact this

lemma pendingWeight_visit_mem {folder : Folder} {visited : List Name} {c : Name}
    (hc : c ∈ univOf folder) (hnv : c ∉ visited) :
    pendingWeight folder (visited ++ [c]) + (1 + (refsOf folder c).length) =
      pendingWeight folder visited := by
  unfold pendingWeight
  have hpred : ∀ n ∈ univOf folder,
      (decide (n ∉ visited ++ [c])) = (decide (n ∉ visited) && decide (n ≠ c)) := by
    intro n _
    by_cases h1 : n ∈ visited <;> by_cases h2 : n = c <;> simp [h1, h2]
  rw [List.filter_congr hpred]
  exact sum_filter_and_ne (fun n => 1 + (refsOf folder n).length) (univOf folder)
    (fun n => decide (n ∉ visited)) c (List.nodup_dedup _) hc (by simp [hnv])

lemma pendingWeight_visit_not_mem {folder : Folder} {visited : List Name} {c : Name}
    (hc : c ∉ univOf folder) :
    pendingWeight folder (visited ++ [c]) = pendingWeight folder visited := by
  unfold pendingWeight
  have hpred : ∀ n ∈ univOf folder,
      (decide (n ∉ visited ++ [c])) = (decide (n ∉ visited)) := by
    intro n hn
    have hnc : n ≠ c := fun e => hc (e ▸ hn)
    rw [decide_eq_decide]
    simp [not_or, hnc]
  rw [List.filter_congr hpred]

/-! ## Termination of the worklist loop -/

lemma collectAuxF_isSome (folder : Folder) :
    ∀ (fuel : Nat) (tp vis : List Name), measureOf folder vis tp ≤ fuel →
    ∃ v, collectAuxF folder fuel tp vis = some v := by
  intro fuel
  induction fuel with
  | zero =>
      intro tp vis h
      simp only [measureOf] at h
      have htp : tp = [] := List.length_eq_zero.mp (by omega)
      subst htp
      exact ⟨vis, rfl⟩
  | succ fuel ih =>
      intro tp vis h
      cases htp : tp.getLast? with
      | none =>
          exact ⟨vis, collectAuxF_succ_none folder fuel vis htp⟩
      | some c =>
          have hdec := getLast?_decomp htp
          have hlen : tp.length = tp.dropLast.length + 1 := by
            conv_lhs => rw [hdec]
            simp
          by_cases hcv : c ∈ vis
          · have hm : measureOf folder vis tp.dropLast ≤ fuel := by
              simp only [measureOf] at h ⊢
              omega
            obtain ⟨v, hv⟩ := ih tp.dropLast vis hm
            exact ⟨v, by rw [collectAuxF_succ_visited folder fuel htp hcv]; exact hv⟩
          · have hpl := List.length_filter_le
              (fun r => decide (r ∉ vis ++ [c])) (refsOf folder c)
            by_cases hcu : c ∈ univOf folder
            · have hA := pendingWeight_visit_mem hcu hcv
              have hm : measureOf folder (vis ++ [c])
                  (tp.dropLast ++ (refsOf folder c).filter
                    (fun r => decide (r ∉ vis ++ [c]))) ≤ fuel := by
                simp only [measureOf, List.length_append] at h ⊢
                omega
              obtain ⟨v, hv⟩ := ih _ _ hm
              exact ⟨v, by rw [collectAuxF_succ_new folder fuel htp hcv]; exact hv⟩
            · have hB := @pendingWeight_visit_not_mem folder vis c hcu
              have hrefs : refsOf folder c = [] := refsOf_eq_nil_of_absent hcu
              have hm : measureOf folder (vis ++ [c])
                  (tp.dropLast ++ (refsOf folder c).filter
                    (fun r => decide (r ∉ vis ++ [c]))) ≤ fuel := by
                simp only [measureOf, List.length_append, hrefs, List.filter_nil,
                  List.length_nil] at h ⊢
                omega
              obtain ⟨v, hv⟩ := ih _ _ hm
              exact ⟨v, by rw [collectAuxF_succ_new folder fuel htp hcv]; exact hv⟩

/-! ## Invariants of the worklist loop -/

lemma collectAuxF_zero_some {folder : Folder} {tp vis v : List Name}
    (h : collectAuxF folder 0 tp vis = some v) : tp = [] ∧ v = vis := by
  rw [collectAuxF_zero] at h
  cases tp with
  | nil =>
      simp only [List.isEmpty_nil, if_true] at h
      injection h with h
      exact ⟨rfl, h.symm⟩
  | cons a t => simp at h

lemma collectAuxF_nodup (folder : Folder) :
    ∀ (fuel : Nat) (tp vis v : List Name),
      collectAuxF folder fuel tp vis = some v → vis.Nodup → v.Nodup := by
  intro fuel
  induction fuel with
  | zero =>
      intro tp vis v h hnd
      obtain ⟨_, rfl⟩ := collectAuxF_zero_some h
      exact hnd
  | succ fuel ih =>
      intro tp vis v h hnd
      cases htp : tp.getLast? with
      | none =>
          rw [collectAuxF_succ_none folder fuel vis htp] at h
          injection h with h
          subst h
          exact hnd
      | some c =>
          by_cases hcv : c ∈ vis
          · rw [collectAuxF_succ_visited folder fuel htp hcv] at h
            exact ih _ _ _ h hnd
          · rw [collectAuxF_succ_new folder fuel htp hcv] at h
            refine ih _ _ _ h ?_
            simp [List.nodup_append, hnd, hcv]

lemma collectAuxF_subset (folder : Folder) :
    ∀ (fuel : Nat) (tp vis v : List Name),
      collectAuxF folder fuel tp vis = some v →
      (∀ x ∈ vis, x ∈ v) ∧ (∀ x ∈ tp, x ∈ v) := by
  intro fuel
  induction fuel with
  | zero =>
      intro tp vis v h
      obtain ⟨rfl, rfl⟩ := collectAuxF_zero_some h
      exact ⟨fun x hx => hx, fun x hx => absurd hx (List.not_mem_nil x)⟩
  | succ fuel ih =>
      intro tp vis v h
      cases htp : tp.getLast? with
      | none =>
          have htpnil := getLast?_eq_none_imp htp
          subst htpnil
          rw [collectAuxF_succ_none folder fuel vis htp] at h
          injection h with h
          subst h
          exact ⟨fun x hx => hx, fun x hx => absurd hx (List.not_mem_nil x)⟩
      | some c =>
          have hdec := getLast?_decomp htp
          by_cases hcv : c ∈ vis
          · rw [collectAuxF_succ_visited folder fuel htp hcv] at h
            obtain ⟨h1, h2⟩ := ih _ _ _ h
            refine ⟨h1, fun x hx => ?_⟩
            rw [hdec] at hx
            rcases List.mem_append.mp hx with hx1 | hx2
            · exact h2 x hx1
            · rw [List.mem_singleton] at hx2
              subst hx2
              exact h1 x hcv
          · rw [collectAuxF_succ_new folder fuel htp hcv] at h
            obtain ⟨h1, h2⟩ := ih _ _ _ h
            have hcv' : c ∈ v := h1 c (by simp)
            refine ⟨fun x hx => h1 x (by simp [hx]), fun x hx => ?_⟩
            rw [hdec] at hx
            rcases List.mem_append.mp hx with hx1 | hx2
            · exact h2 x (List.mem_append_left _ hx1)
            · rw [List.mem_singleton] at hx2
              subst hx2
              exact hcv'

lemma collectAuxF_sound (folder : Folder) (R : Name → Prop)
    (hR : ∀ a b, R a → b ∈ refsOf folder a → R b) :
    ∀ (fuel : Nat) (tp vis v : List Name),
      collectAuxF folder fuel tp vis = some v →
      (∀ x ∈ vis, R x) → (∀ x ∈ tp, R x) → ∀ x ∈ v, R x := by
  intro fuel
  induction fuel with
  | zero =>
      intro tp vis v h hvis _
      obtain ⟨_, rfl⟩ := collectAuxF_zero_some h
      exact hvis
  | succ fuel ih =>
      intro tp vis v h hvis htpR
      cases htp : tp.getLast? with
      | none =>
          rw [collectAuxF_succ_none folder fuel vis htp] at h
          injection h with h
          subst h
          exact hvis
      | some c =>
          have hdec := getLast?_decomp htp
          have hcR : R c := htpR c (by rw [hdec]; simp)
          have hdropR : ∀ x ∈ tp.dropLast, R x :=
            fun x hx => htpR x (by rw [hdec]; exact List.mem_append_left _ hx)
          by_cases hcv : c ∈ vis
          · rw [collectAuxF_succ_visited folder fuel htp hcv] at h
            exact ih _ _ _ h hvis hdropR
          · rw [collectAuxF_succ_new folder fuel htp hcv] at h
            refine ih _ _ _ h ?_ ?_
            · intro x hx
              rcases List.mem_append.mp hx with hx1 | hx2
              · exact hvis x hx1
              · rw [List.mem_singleton] at hx2
                subst hx2
                exact hcR
            · intro x hx
              rcases List.mem_append.mp hx with hx1 | hx2
              · exact hdropR x hx1
              · exact hR c x hcR (List.mem_filter.mp hx2).1

lemma collectAuxF_closed (folder : Folder) :
    ∀ (fuel : Nat) (tp vis v : List Name),
      collectAuxF folder fuel tp vis = some v →
      (∀ x ∈ vis, ∀ r ∈ refsOf folder x, r ∈ vis ∨ r ∈ tp) →
      ∀ x ∈ v, ∀ r ∈ refsOf folder x, r ∈ v := by
  intro fuel
  induction fuel with
  | zero =>
      intro tp vis v h hinv
      obtain ⟨rfl, rfl⟩ := collectAuxF_zero_some h
      intro x hx r hr
      rcases hinv x hx r hr with hr1 | hr2
      · exact hr1
      · exact absurd hr2 (List.not_mem_nil r)
  | succ fuel ih =>
      intro tp vis v h hinv
      cases htp : tp.getLast? with
      | none =>
          have htpnil := getLast?_eq_none_imp htp
          subst htpnil
          rw [collectAuxF_succ_none folder fuel vis htp] at h
          injection h with h
          subst h
          intro x hx r hr
          rcases hinv x hx r hr with hr1 | hr2
          · exact hr1
          · exact absurd hr2 (List.not_mem_nil r)
      | some c =>
          have hdec := getLast?_decomp htp
          by_cases hcv : c ∈ vis
          · rw [collectAuxF_succ_visited folder fuel htp hcv] at h
            refine ih _ _ _ h ?_
            intro x hx r hr
            rcases hinv x hx r hr with hr1 | hr2
            · exact Or.inl hr1
            · rw [hdec] at hr2
              rcases List.mem_append.mp hr2 with hr3 | hr4
              · exact Or.inr hr3
              · rw [List.mem_singleton] at hr4
                subst hr4
                exact Or.inl hcv
          · rw [collectAuxF_succ_new folder fuel htp hcv] at h
            refine ih _ _ _ h ?_
            intro x hx r hr
            rcases List.mem_append.mp hx with hx1 | hx2
            · rcases hinv x hx1 r hr with hr1 | hr2
              · exact Or.inl (List.mem_append_left _ hr1)
              · rw [hdec] at hr2
                rcases List.mem_append.mp hr2 with hr3 | hr4
                · exact Or.inr (List.mem_append_left _ hr3)
                · exact Or.inl (List.mem_append_right _ hr4)
            · rw [List.mem_singleton] at hx2
              subst hx2
              by_cases hrv : r ∈ vis ++ [x]
              · exact Or.inl hrv
              · exact Or.inr (List.mem_append_right _
                  (List.mem_filter.mpr ⟨hr, by simp [hrv]⟩))

/-! ## The worklist loop computes reachability -/

lemma collectRun_spec (folder : Folder) (seeds : List Name) :
    ∃ v, collectRun folder seeds = some v ∧ v.Nodup ∧
      (∀ n, n ∈ v ↔ ∃ s ∈ seeds, Reaches folder s n) := by
  obtain ⟨v, hv⟩ := collectAuxF_isSome folder (measureOf folder [] seeds) seeds []
    (Nat.le_refl _)
  refine ⟨v, hv, collectAuxF_nodup folder _ _ _ _ hv List.nodup_nil, ?_⟩
  intro n
  constructor
  · intro hn
    refine collectAuxF_sound folder (fun x => ∃ s ∈ seeds, Reaches folder s x)
      ?_ _ _ _ _ hv (by simp) (fun x hx => ⟨x, hx, Relation.ReflTransGen.refl⟩) n hn
    intro a b ha hb
    obtain ⟨s, hs, hreach⟩ := ha
    exact ⟨s, hs, hreach.tail hb⟩
  · rintro ⟨s, hs, hreach⟩
    have hsub := collectAuxF_subset folder _ _ _ _ hv
    have hcl := collectAuxF_closed folder _ _ _ _ hv (by simp)
    induction hreach with
    | refl => exact hsub.2 s hs
    | tail _ hstep ih => exact hcl _ ih _ hstep

/-! ## Claim C3: termination, no reprocessing, closure on cycles -/

/-- Claim C3: for every folder and seed list the worklist loop
terminates within its measure budget; the returned list never repeats a
name (each file is processed at most once); its members are exactly the
names reachable from the seeds along `.3do` references; and on the
two-file cycle `a.3do ↔ b.3do` it returns exactly the two names, each
once. -/
theorem claim_C3 (folder : Folder) (track : Name) (extras : List Name) :
    (∃ v, collectRun folder (track :: extras) = some v) ∧
    (collect_all_3do_files folder track extras).Nodup ∧
    (∀ n, n ∈ collect_all_3do_files folder track extras ↔
      ∃ s ∈ track :: extras, Reaches folder s n) ∧
    collect_all_3do_files cycleFolder nameA [] = [nameA, nameB] := by
  obtain ⟨v, hv, hnd, hmem⟩ := collectRun_spec folder (track :: extras)
  have hc : collect_all_3do_files folder track extras = v := by
    simp [collect_all_3do_files, hv]
  refine ⟨⟨v, hv⟩, ?_, ?_, by decide⟩
  · rw [hc]; exact hnd
  · rw [hc]; exact hmem

/-! ## Claim C4: reference-free roots give exactly the seed set -/

lemma reaches_self_of_refs_nil {folder : Folder} {s n : Name}
    (hrefs : refsOf folder s = []) (h : Reaches folder s n) : n = s := by
  rcases Relation.ReflTransGen.cases_head h with h1 | ⟨c, hstep, _⟩
  · exact h1.symm
  · rw [Step, hrefs] at hstep
    exact absurd hstep (List.not_mem_nil c)

/-- Claim C4: when the root and the two extra roots have no `.3do`
references, `collect_all_3do_files` returns exactly the three seeds —
the worklist is seeded with the root followed by the extra roots, and
all seeds appear in the result. -/
theorem claim_C4 (folder : Folder) (X sky horiz : Name)
    (hX : refsOf folder X = []) (hs : refsOf folder sky = [])
    (hh : refsOf folder horiz = []) :
    ∀ n, n ∈ collect_all_3do_files folder X [sky, horiz] ↔
      (n = X ∨ n = sky ∨ n = horiz) := by
  obtain ⟨v, hv, _, hmem⟩ := collectRun_spec folder (X :: [sky, horiz])
  have hc : collect_all_3do_files folder X [sky, horiz] = v := by
    simp [collect_all_3do_files, hv]
  intro n
  rw [hc, hmem n]
  constructor
  · rintro ⟨s, hsm, hreach⟩
    have hrefs : refsOf folder s = [] := by
      rcases List.mem_cons.mp hsm with rfl | hsm2
      · exact hX
      · rcases List.mem_cons.mp hsm2 with rfl | hsm3
        · exact hs
        · rw [List.mem_singleton] at hsm3
          subst hsm3
          exact hh
    have := reaches_self_of_refs_nil hrefs hreach
    subst this
    rcases List.mem_cons.mp hsm with rfl | hsm2
    · exact Or.inl rfl
    · rcases List.mem_cons.mp hsm2 with rfl | hsm3
      · exact Or.inr (Or.inl rfl)
      · rw [List.mem_singleton] at hsm3
        exact Or.inr (Or.inr hsm3)
  · rintro (rfl | rfl | rfl)
    · exact ⟨n, by simp, Relation.ReflTransGen.refl⟩
    · exact ⟨n, by simp, Relation.ReflTransGen.refl⟩
    · exact ⟨n, by simp, Relation.ReflTransGen.refl⟩

/-- Witness for C4: the empty folder, where every file fails to open
and so has no references; the three seeds are exactly the result. -/
theorem claim_C4_witness :
    refsOf ([] : Folder) [120] = [] ∧ refsOf ([] : Folder) [115] = [] ∧
    refsOf ([] : Folder) [104] = [] ∧
    (∀ n, n ∈ collect_all_3do_files ([] : Folder) [120] [[115], [104]] ↔
      (n = [120] ∨ n = [115] ∨ n = [104])) :=
  ⟨rfl, rfl, rfl, claim_C4 ([] : Folder) [120] [115] [104] rfl rfl rfl⟩

end AnalyzeTrackFiles
